import Mathlib

/-!
# esp-transpiler: the identifier mapping, the whitespace normaliser and the worker

A shallow embedding of `impl/worker/mapping.go` (`Mapping`, `NewMapping`,
`Mapping.Apply`, `Mapping.Read`) and of the helper `Trim` of
`impl/worker/worker_test.go`, with the properties of the specification that
concern them.  The worker that the tests drive is modelled from the
specification.

Go strings are modelled as Lean strings (sequences of Unicode characters, that
is, valid UTF-8 text).  The iteration order of a Go map is unspecified: `Apply`
takes the order of the scan as an argument, and the theorems hold for every
order that visits each key once.
-/

namespace Worker

/-! ## Go maps -/

/-- A Go value of type `map[string]string`.  `none` is the nil map, `some es`
an allocated map whose bindings are listed in `es`; the first binding of a key
in the list is the one the map holds. -/
abbrev GoMap := Option (List (String × String))

/-- The bindings of a map; the nil map has none. -/
def GoMap.entries : GoMap → List (String × String)
  | none => []
  | some es => es

/-- The keys of a map (a key is listed once for each binding in `entries`). -/
def GoMap.keys (r : GoMap) : List String :=
  r.entries.map Prod.fst

/-- The Go expression `r[k]`: the value bound to `k`, or the zero value `""`
when `k` is not a key (also for the nil map). -/
def GoMap.index (r : GoMap) (k : String) : String :=
  match r.entries.lookup k with
  | some v => v
  | none => ""

/-- The Go statement `r[k] = v` on an allocated map. -/
def GoMap.set (r : GoMap) (k v : String) : GoMap :=
  some ((k, v) :: r.entries.filter (fun e => e.1 != k))

/-- The Go expression `make(map[string]string, 0)`. -/
def GoMap.make : GoMap := some []

/-- An order in which `for k := range r` may visit the keys of `r`: every key
exactly once, in any order. -/
def GoMap.IsRangeOrder (r : GoMap) (order : List String) : Prop :=
  order.Nodup ∧ (∀ k ∈ order, k ∈ r.keys) ∧ (∀ k ∈ r.keys, k ∈ order)

instance (r : GoMap) (order : List String) : Decidable (r.IsRangeOrder order) := by
  unfold GoMap.IsRangeOrder; infer_instance

/-! ## `mapping.go` -/

/-- The struct `Mapping`. -/
structure Mapping where
  Filename : String
  Rules : GoMap

/-- The function `NewMapping`. -/
def NewMapping (filename : String) : Mapping :=
  let rules := GoMap.make
  ⟨filename, rules⟩

/-- The body of the loop of `Mapping.Apply`, run for the keys `wanted` of the
remaining scan: `if ident == wanted { ident = m.Rules[ident] }`. -/
def Mapping.applyLoop (m : Mapping) : List String → String → String
  | [], ident => ident
  | wanted :: rest, ident =>
    m.applyLoop rest (if ident = wanted then m.Rules.index ident else ident)

/-- The method `Mapping.Apply`; `order` is the order in which the `range`
statement visits the keys of `m.Rules`. -/
def Mapping.Apply (m : Mapping) (order : List String) (ident : String) : String :=
  m.applyLoop order ident

/-! ## Files and JSON decoding, as `Mapping.Read` uses them -/

/-- A Go `error` value that is not nil. -/
inductive Error
  | fileError (reason : String)
  | invalidJSON
  | typeMismatch (value : String)
  deriving DecidableEq, Repr

/-- A JSON value. -/
inductive JSON
  | null
  | bool (b : Bool)
  | number (literal : String)
  | string (s : String)
  | array (items : List JSON)
  | object (members : List (String × JSON))

/-- The name `encoding/json` gives to the kind of a JSON value in its type
errors. -/
def JSON.kind : JSON → String
  | .null => "null"
  | .bool _ => "bool"
  | .number _ => "number"
  | .string _ => "string"
  | .array _ => "array"
  | .object _ => "object"

/-- The bytes of a file as `json.Unmarshal` sees them: text that is not
syntactically valid JSON, or the text of a JSON value. -/
inductive Content
  | malformed (text : String)
  | document (value : JSON)

/-- The call `ioutil.ReadFile(filename)`: the content of the file, or the
error of a missing or unreadable file. -/
abbrev FileSystem := String → Except Error Content

/-- The members of a JSON object stored one after the other into a map of
strings by `json.Unmarshal`: a string is stored under its key; a value of
another kind leaves the element at its zero value, which is stored, and is
recorded as a type error unless it is `null`; decoding goes on with the next
member and the earliest error is the one reported. -/
def storeMembers : List (String × JSON) → GoMap → Option Error → GoMap × Option Error
  | [], r, err => (r, err)
  | (k, .string s) :: rest, r, err => storeMembers rest (r.set k s) err
  | (k, .null) :: rest, r, err => storeMembers rest (r.set k "") err
  | (k, v) :: rest, r, err =>
    storeMembers rest (r.set k "") (err <|> some (.typeMismatch v.kind))

/-- The call `json.Unmarshal(data, &v)` of Go's `encoding/json` for a variable
`v` of type `map[string]string`, after the documentation of the package: the
new value of `v` and the error returned.  Invalid JSON is rejected before
anything is stored; `null` sets the map to nil; an object is stored member by
member into the map, allocated if it was nil; any other value is a type error
that leaves the map as it was. -/
def Unmarshal (data : Content) (v : GoMap) : GoMap × Option Error :=
  match data with
  | .malformed _ => (v, some .invalidJSON)
  | .document .null => (none, none)
  | .document (.object members) => storeMembers members (some v.entries) none
  | .document j => (v, some (.typeMismatch j.kind))

/-- The method `Mapping.Read`: the mapping after the call and the error
returned (`none` is nil).  The error of `json.Unmarshal` is dropped, as in the
source. -/
def Mapping.Read (readFile : FileSystem) (m : Mapping) : Mapping × Option Error :=
  match readFile m.Filename with
  | .error err => (m, some err)
  | .ok bytes =>
    let rules : GoMap := none
    let rules := (Unmarshal bytes rules).1
    (⟨m.Filename, rules⟩, none)

/-! ## `worker_test.go`: `Trim` -/

/-- The loop of `strings.Replace` for an empty `old`: `new` is written before
the text and after each of its characters, `n` times in all. -/
def insertLoop (new : List Char) : Nat → List Char → List Char
  | 0, s => s
  | _ + 1, [] => new
  | n + 1, c :: cs => new ++ c :: insertLoop new n cs

/-- The loop of `strings.Replace` for a non-empty `old`: the text is copied up
to the next instance of `old`, `new` is written in its place and the scan goes
on behind the instance, for at most `n` instances.  `skip` counts the
characters of a replaced instance that are still to be passed over. -/
def replaceLoop (old new : List Char) : Nat → Nat → List Char → List Char
  | _, _, [] => []
  | skip + 1, n, _ :: cs => replaceLoop old new skip n cs
  | 0, 0, c :: cs => c :: cs
  | 0, n + 1, c :: cs =>
    if old.isPrefixOf (c :: cs) then new ++ replaceLoop old new (old.length - 1) n cs
    else c :: replaceLoop old new 0 (n + 1) cs

/-- The function `strings.Replace(s, old, new, n)` of the Go library: the
first `n` non-overlapping instances of `old` replaced by `new`, all of them
when `n < 0`. -/
def Replace (s old new : String) (n : Int) : String :=
  if old = new ∨ n = 0 then s
  else
    let limit := if n < 0 then s.length + 1 else n.toNat
    if old.data = [] then ⟨insertLoop new.data limit s.data⟩
    else ⟨replaceLoop old.data new.data 0 limit s.data⟩

/-- The function `Trim` of `worker_test.go`. -/
def Trim (s : String) : String :=
  let s := Replace s " " "" (-1)
  let s := Replace s "\n" "" (-1)
  let s := Replace s "\r" "" (-1)
  let s := Replace s "\t" "" (-1)
  s

/-- The comparison at the end of `Validate`:
`tcode, texpected := Trim(code), Trim(expected)` and
`Assert(t, tcode, IsEqual(texpected))`. -/
def Validate.sameText (code expected : String) : Bool :=
  Trim code == Trim expected

/-- The characters `Trim` is written to remove: space, newline, carriage
return and tab. -/
def isWhitespace (c : Char) : Bool :=
  c == ' ' || c == '\n' || c == '\r' || c == '\t'

/-- The sequence of the characters of a text that are not whitespace. -/
def nonWhitespace (s : String) : List Char :=
  s.data.filter (fun c => !isWhitespace c)

/-! ## The worker

`worker_test.go` drives a worker (`NewWorker`, `Start`) whose source is not
part of the files at hand; the definitions of this section follow the
specification (sections 3 and 4). -/

/-- Modelled from the spec: the expressions of the data model (section 3), the
source of the worker being absent: identifier, qualified selector
`left.right`, literal carried verbatim, call. -/
inductive Expr
  | ident (name : String)
  | selector (left right : String)
  | literal (text : String)
  | call (callee : Expr) (args : List Expr)

/-- Modelled from the spec: a constant or variable declaration (section 3):
name, type name and optional initializer. -/
structure ValueDecl where
  isConst : Bool
  name : String
  typeName : String
  init : Option Expr

/-- Modelled from the spec: the statements of the data model (section 3). -/
inductive Stmt
  | decl (d : ValueDecl)
  | assign (target : String) (value : Expr)
  | expr (e : Expr)

/-- Modelled from the spec: a function declaration (section 3): a name,
parameters (each a name and a type name) and a body. -/
structure FuncDecl where
  name : String
  params : List (String × String)
  body : List Stmt

/-- Modelled from the spec: a top-level declaration (section 3). -/
inductive Decl
  | func (f : FuncDecl)
  | value (d : ValueDecl)

/-- Modelled from the spec: an import declaration (section 3). -/
structure ImportDecl where
  localName : Option String
  path : String

/-- Modelled from the spec: a program (section 3). -/
structure Program where
  imports : List ImportDecl
  decls : List Decl

/-- Modelled from the spec: the controller registry (sections 3 and 4.2), whose
entries the specification does not list: facility key, object name, header
(`none` for a built-in facility). -/
abbrev Registry := List (String × String × Option String)

/-- Modelled from the spec: the top-level function declarations of a
program, in source order (section 4.6, step 3 counts them). -/
def Program.functions (p : Program) : List FuncDecl :=
  p.decls.filterMap (fun d => match d with
    | .func f => some f
    | .value _ => none)

/-- Modelled from the spec: the trailing segment of an import path (section
4.3). -/
def trailingSegment (path : String) : String :=
  ⟨(path.data.reverse.takeWhile (fun c => c != '/')).reverse⟩

/-- Modelled from the spec: the import resolver (section 4.3): the header
literals required by the imports, each once, in encounter order. -/
def resolveImports (reg : Registry) (imports : List ImportDecl) : List String :=
  (imports.filterMap (fun i =>
    match reg.lookup (trailingSegment i.path) with
    | some (_, some header) => some header
    | _ => none)).dedup

/-- Modelled from the spec: a name with its first character lower-cased
(section 4.4, step 2). -/
def lowerFirst (s : String) : String :=
  match s.data with
  | [] => s
  | c :: cs => ⟨c.toLower :: cs⟩

/-- Modelled from the spec: the identifier and selector resolver (section 4.4)
on the dotted string `left.right`: exact override first, controller registry
second, pass-through otherwise. -/
def resolveSelector (reg : Registry) (m : Mapping) (left right : String) : String :=
  match m.Rules.entries.lookup (left ++ "." ++ right) with
  | some v => v
  | none =>
    match reg.lookup left with
    | some (objectName, _) => objectName ++ "." ++ lowerFirst right
    | none => left ++ "." ++ right

/-- Modelled from the spec: a bare identifier is only subject to the exact
override (section 4.4). -/
def resolveIdent (m : Mapping) (name : String) : String :=
  match m.Rules.entries.lookup name with
  | some v => v
  | none => name

mutual
/-- Modelled from the spec: translation of an expression (section 4.5). -/
def translateExpr (reg : Registry) (m : Mapping) : Expr → String
  | .ident name => resolveIdent m name
  | .selector left right => resolveSelector reg m left right
  | .literal text => text
  | .call callee args =>
    translateExpr reg m callee ++ "(" ++ translateArgs reg m args ++ ")"
/-- Modelled from the spec: the arguments of a call, in original order,
comma-separated (section 4.5). -/
def translateArgs (reg : Registry) (m : Mapping) : List Expr → String
  | [] => ""
  | [e] => translateExpr reg m e
  | e :: es => translateExpr reg m e ++ "," ++ translateArgs reg m es
end

/-- Modelled from the spec: translation of a type name (section 4.5). -/
def translateType (typeName : String) : String :=
  if typeName = "string" then "char*" else typeName

/-- Modelled from the spec: translation of a constant or variable declaration
(section 4.5). -/
def translateValueDecl (reg : Registry) (m : Mapping) (d : ValueDecl) : String :=
  (if d.isConst then "const " else "") ++ translateType d.typeName ++ " " ++ d.name ++
    (match d.init with
      | some e => " = " ++ translateExpr reg m e
      | none => "") ++ ";\n"

/-- Modelled from the spec: translation of a statement (section 4.5). -/
def translateStmt (reg : Registry) (m : Mapping) : Stmt → String
  | .decl d => translateValueDecl reg m d
  | .assign target value => target ++ " = " ++ translateExpr reg m value ++ ";\n"
  | .expr e => translateExpr reg m e ++ ";\n"

/-- Modelled from the spec: translation of a function declaration (section
4.5): no return value, each parameter as type then name, the name verbatim. -/
def translateFunc (reg : Registry) (m : Mapping) (f : FuncDecl) : String :=
  "void " ++ f.name ++ "(" ++
    ", ".intercalate (f.params.map (fun q => translateType q.2 ++ " " ++ q.1)) ++ ") \x7b" ++
    String.join (f.body.map (translateStmt reg m)) ++ "\x7d\n"

/-- Where a piece of the output comes from. -/
inductive Origin
  | directive
  | value
  | function
  | synthesized
  deriving DecidableEq, Repr

/-- A piece of the output: an include directive, a translated declaration or a
synthesized entry function, with its text. -/
structure Emitted where
  origin : Origin
  text : String
  deriving DecidableEq, Repr

/-- Modelled from the spec: the two entry functions synthesized for a program
without functions (section 4.6, step 3), in the order `TestEmptyPackage`
expects them. -/
def entryFunctions : List Emitted :=
  [⟨.synthesized, "void loop() {}\n"⟩, ⟨.synthesized, "void setup() {}\n"⟩]

/-- Modelled from the spec: translation of a top-level declaration (section
4.6, step 2). -/
def translateDecl (reg : Registry) (m : Mapping) : Decl → Emitted
  | .func f => ⟨.function, translateFunc reg m f⟩
  | .value d => ⟨.value, translateValueDecl reg m d⟩

/-- Modelled from the spec: the pass of the translation orchestrator (section
4.6), the source of `Worker.Start` being absent: include directives first
(step 1), then every top-level declaration in source order (step 2), then the
two entry functions when the count of top-level function declarations is
exactly zero, and nothing more when it is one or more (step 3). -/
def emit (reg : Registry) (m : Mapping) (p : Program) : List Emitted :=
  (resolveImports reg p.imports).map (fun h => ⟨.directive, "#include " ++ h ++ "\n"⟩) ++
    p.decls.map (translateDecl reg m) ++
    (if p.functions.length = 0 then entryFunctions else [])

/-- Modelled from the spec: the text the worker writes to its output (section
4.6, step 4). -/
def Start (reg : Registry) (m : Mapping) (p : Program) : String :=
  String.join ((emit reg m p).map Emitted.text)

/-- The rules of `{"a": "b", "b": "c"}`, where a replacement value is a key. -/
def chainedMapping : Mapping :=
  ⟨"mapping.json", some [("a", "b"), ("b", "c")]⟩

/-- The rules of `{"a": "b", "b": "a"}`, a cycle. -/
def cyclicMapping : Mapping :=
  ⟨"mapping.json", some [("a", "b"), ("b", "a")]⟩

/-- The rule `TestFunctionWithIdentParam` relies on, `{"digital.Low": "LOW"}`. -/
def testMapping : Mapping :=
  ⟨"mapping.json", some [("digital.Low", "LOW")]⟩

/-- The registry entries the tests show: `serial` is `Serial` without a
header, `wifi` is `WiFi` with the header `<WiFi.h>`. -/
def testRegistry : Registry :=
  [("serial", "Serial", none), ("wifi", "WiFi", some "<WiFi.h>")]

/-- A file system whose every file is missing. -/
def noFile : FileSystem :=
  fun name => .error (.fileError ("open " ++ name ++ ": no such file or directory"))

/-- A file system whose every file has the given content. -/
def fileWith (content : Content) : FileSystem :=
  fun _ => .ok content

/-- The content `{"a": "b", "c": 1}`: an object with a value that is not a
string. -/
def mixedObject : Content :=
  .document (.object [("a", .string "b"), ("c", .number "1")])

/-- The program of `TestEmptyPackage`: `package test`. -/
def emptyPackage : Program :=
  ⟨[], []⟩

/-- The program of `TestFunctionDeclaration`: `func foo() {}` and
`func bar() {}`. -/
def fooBar : Program :=
  ⟨[], [.func ⟨"foo", [], []⟩, .func ⟨"bar", [], []⟩]⟩

/-- The program of `TestConstStringDeclaration`: `const foo string = "bar"`. -/
def constOnly : Program :=
  ⟨[], [.value ⟨true, "foo", "string", some (.literal "\"bar\"")⟩]⟩

/-! ## Direct lookup and decoded tables -/

/-- The condition under which a scan cannot follow a chain: no replacement
value is a key of the table other than its own key. -/
def GoMap.NoChain (r : GoMap) : Prop :=
  ∀ k ∈ r.keys, r.index k ∉ r.keys ∨ r.index k = k

instance (r : GoMap) : Decidable r.NoChain := by
  unfold GoMap.NoChain; infer_instance

/-- Direct key lookup with pass-through, in the words of the specification:
the replacement stored for `x` when `x` is a key, `x` itself otherwise. -/
def Mapping.directLookup (m : Mapping) (x : String) : String :=
  match m.Rules.entries.lookup x with
  | some v => v
  | none => x

/-- The content of a file that holds a JSON object whose values are all
strings, its members in the order of the text. -/
def Content.ofStrings (members : List (String × String)) : Content :=
  .document (.object (members.map (fun e => (e.1, JSON.string e.2))))

/-- The string-to-string mapping that a JSON object of strings stands for:
the value of a key is the one of its last member in the text. -/
def decoded (members : List (String × String)) (k : String) : Option String :=
  members.reverse.lookup k

/-- The rules of `{"a": "b", "x": "x"}`: no replacement value is another
key. -/
def plainMapping : Mapping :=
  ⟨"mapping.json", some [("a", "b"), ("x", "x")]⟩

/-! ## Lemmas on maps and on `Apply` -/

theorem Mapping.applyLoop_of_not_mem (m : Mapping) (order : List String) (x : String)
    (hx : x ∉ order) : m.applyLoop order x = x := by
  induction order with
  | nil => rfl
  | cons w rest ih =>
    have hw : x ≠ w := fun e => hx (by simp [e])
    have hr : x ∉ rest := fun e => hx (by simp [e])
    simp [Mapping.applyLoop, hw, ih hr]

/-- The values `x, R[x], R[R[x]], ...` from which `Apply` takes a step are
keys met, in this order, along the scan. -/
theorem Mapping.applyLoop_chain (m : Mapping) (order : List String) (x : String) :
    ∃ n, m.applyLoop order x = (m.Rules.index)^[n] x ∧
      ((List.range n).map (fun i => (m.Rules.index)^[i] x)).Sublist order := by
  induction order generalizing x with
  | nil => exact ⟨0, rfl, by simp⟩
  | cons w rest ih =>
    by_cases hw : x = w
    · obtain ⟨n, hn, hs⟩ := ih (m.Rules.index x)
      refine ⟨n + 1, ?_, ?_⟩
      · simp only [Mapping.applyLoop, hw, if_true, Function.iterate_succ_apply]
        rw [← hw]; exact hn
      · rw [List.range_succ_eq_map, List.map_cons, List.map_map]
        subst hw
        simpa [Function.comp_def] using hs
    · obtain ⟨n, hn, hs⟩ := ih x
      refine ⟨n, ?_, hs.trans (List.sublist_cons_self w rest)⟩
      simp only [Mapping.applyLoop, hw, if_false]
      exact hn

theorem GoMap.IsRangeOrder.length_le {r : GoMap} {order : List String}
    (h : r.IsRangeOrder order) : order.length ≤ r.keys.dedup.length := by
  apply List.Subperm.length_le
  apply List.subperm_of_subset h.1
  intro k hk
  exact List.mem_dedup.mpr (h.2.1 k hk)

/-! ## `Mapping.Apply` -/

/-- C1 (evaluation of the code where the claim fails): with the rules
`{"a": "b", "b": "c"}`, scanned with `a` before `b`, `Apply("a")` is `"c"`
and not the value `"b"` stored for the key `a`: the loop goes on after the
match and looks the replacement up again.  Scanned with `b` first, the same
call gives `"b"`. -/
theorem Apply_looks_replacement_up_again :
    chainedMapping.Rules.IsRangeOrder ["a", "b"] ∧
    chainedMapping.Rules.IsRangeOrder ["b", "a"] ∧
    "a" ∈ chainedMapping.Rules.keys ∧
    chainedMapping.Rules.index "a" = "b" ∧
    chainedMapping.Apply ["a", "b"] "a" = "c" ∧
    chainedMapping.Apply ["b", "a"] "a" = "b" := by
  decide

/-- C2: for every rule table, every order of the scan and every identifier
that is not a key of the table, `Apply` returns the identifier unchanged. -/
theorem Apply_of_not_key (m : Mapping) (order : List String) (x : String)
    (horder : m.Rules.IsRangeOrder order) (hx : x ∉ m.Rules.keys) :
    m.Apply order x = x :=
  m.applyLoop_of_not_mem order x (fun h => hx (horder.2.1 x h))

/-- C2 at concrete inputs: with the rule `digital.Low -> LOW`, the identifier
`foo.Bar`, a proper beginning of the key, a text that contains the key and the
key in another letter case are all returned unchanged. -/
theorem Apply_of_not_key_witness :
    testMapping.Rules.IsRangeOrder ["digital.Low"] ∧
    testMapping.Apply ["digital.Low"] "foo.Bar" = "foo.Bar" ∧
    testMapping.Apply ["digital.Low"] "digital" = "digital" ∧
    testMapping.Apply ["digital.Low"] "digital.Lower" = "digital.Lower" ∧
    testMapping.Apply ["digital.Low"] "digital.low" = "digital.low" :=
  ⟨by decide,
    Apply_of_not_key testMapping ["digital.Low"] "foo.Bar" (by decide) (by decide),
    Apply_of_not_key testMapping ["digital.Low"] "digital" (by decide) (by decide),
    Apply_of_not_key testMapping ["digital.Low"] "digital.Lower" (by decide) (by decide),
    Apply_of_not_key testMapping ["digital.Low"] "digital.low" (by decide) (by decide)⟩

/-! ## `Mapping.Read` -/

/-- C3 (evaluation of the code where the claim fails): whatever the content of
a readable file, `Read` returns nil; for a file that holds `not json`, the
decoder reports an error, `Read` returns nil and the table is the nil map. -/
theorem Read_returns_nil_on_malformed_content :
    (∀ (content : Content) (m : Mapping), (m.Read (fileWith content)).2 = none) ∧
    (Unmarshal (.malformed "not json") none).2 = some .invalidJSON ∧
    ((NewMapping "mapping.json").Read (fileWith (.malformed "not json"))).2 = none ∧
    ((NewMapping "mapping.json").Read (fileWith (.malformed "not json"))).1.Rules = none :=
  ⟨fun _ _ => rfl, rfl, rfl, rfl⟩

/-- C4: when the file of a mapping is missing or unreadable, `Read` returns
the error of the file read and the mapping is as before: same `Filename`, same
`Rules`, and `Apply` gives what it gave before the call. -/
theorem Read_of_missing_file (fs : FileSystem) (m : Mapping) (err : Error)
    (hread : fs m.Filename = .error err) :
    (m.Read fs).2 = some err ∧
    (m.Read fs).1.Filename = m.Filename ∧
    (m.Read fs).1.Rules = m.Rules ∧
    ∀ order x, (m.Read fs).1.Apply order x = m.Apply order x := by
  have h : m.Read fs = (m, some err) := by
    unfold Mapping.Read
    rw [hread]
  rw [h]
  exact ⟨rfl, rfl, rfl, fun _ _ => rfl⟩

/-- C4 at a concrete input: a mapping with the rule `digital.Low -> LOW` and no
file to read. -/
theorem Read_of_missing_file_witness :
    (testMapping.Read noFile).2 =
      some (.fileError "open mapping.json: no such file or directory") ∧
    (testMapping.Read noFile).1.Rules = some [("digital.Low", "LOW")] ∧
    (testMapping.Read noFile).1.Apply ["digital.Low"] "digital.Low" = "LOW" := by
  have h := Read_of_missing_file noFile testMapping
    (.fileError "open mapping.json: no such file or directory") rfl
  refine ⟨h.1, h.2.2.1, ?_⟩
  rw [h.2.2.2]
  decide

/-! ## `Trim` -/

/-- With enough replacements allowed, the loop of `Replace` for a one-character
`old` and an empty `new` deletes every instance of the character. -/
theorem replaceLoop_char (ch : Char) (s : List Char) (n : Nat) (hn : s.length < n) :
    replaceLoop [ch] [] 0 n s = s.filter (fun c => c != ch) := by
  induction s generalizing n with
  | nil => cases n <;> rfl
  | cons c cs ih =>
    obtain ⟨k, rfl⟩ : ∃ k, n = k + 1 := ⟨n - 1, by omega⟩
    have hk : cs.length < k := by simpa using hn
    by_cases hc : c = ch
    · subst hc
      simp [replaceLoop, ih k hk]
    · have hc2 : ¬ ch = c := fun e => hc e.symm
      simp [replaceLoop, hc, hc2, ih (k + 1) (by omega)]

/-- The call `Replace(s, old, "", -1)` for a one-character `old` is a filter. -/
theorem Replace_char (s old : String) (ch : Char) (hold : old.data = [ch]) :
    (Replace s old "" (-1)).data = s.data.filter (fun c => c != ch) := by
  have h1 : ¬ (old = "" ∨ (-1 : Int) = 0) := by
    rintro (h | h)
    · rw [h] at hold; simp at hold
    · omega
  have h2 : ¬ old.data = [] := by rw [hold]; simp
  unfold Replace
  rw [if_neg h1]
  simp only [hold]
  rw [if_neg (by simp), if_pos (by omega)]
  exact replaceLoop_char ch s.data _ (by cases s; exact Nat.lt_succ_self _)

/-- The four passes of `Trim` are one filter over the characters of the text. -/
theorem Trim_data (s : String) : (Trim s).data = nonWhitespace s := by
  unfold Trim nonWhitespace
  simp only []
  rw [Replace_char _ "\t" '\t' rfl, Replace_char _ "\r" '\r' rfl,
    Replace_char _ "\n" '\n' rfl, Replace_char _ " " ' ' rfl]
  simp only [List.filter_filter]
  congr 1
  funext c
  simp only [isWhitespace, Bool.not_or, bne, Bool.and_assoc]
  cases (c == ' ') <;> cases (c == '\n') <;> cases (c == '\r') <;> cases (c == '\t') <;> rfl

/-- C7: for every string `s`, `Trim s` contains no space, newline, carriage
return or tab, and it is `s` with exactly these characters deleted: the four
`Replace` passes equal one filter over `s`, which keeps every other character
once and in its original order. -/
theorem Trim_removes_exactly_whitespace (s : String) :
    (∀ c ∈ (Trim s).data, c ≠ ' ' ∧ c ≠ '\n' ∧ c ≠ '\r' ∧ c ≠ '\t') ∧
    (Trim s).data =
      s.data.filter (fun c => c != ' ' && c != '\n' && c != '\r' && c != '\t') ∧
    (Trim s).data.Sublist s.data := by
  have h : (Trim s).data =
      s.data.filter (fun c => c != ' ' && c != '\n' && c != '\r' && c != '\t') := by
    rw [Trim_data]
    unfold nonWhitespace
    congr 1
    funext c
    simp only [isWhitespace, Bool.not_or, bne, Bool.and_assoc]
  refine ⟨?_, h, ?_⟩
  · intro c hc
    rw [h, List.mem_filter] at hc
    simpa [and_assoc] using hc.2
  · rw [h]
    exact List.filter_sublist _

/-- C6: for all strings `s` and `t`, `Trim s = Trim t` exactly when `s` and `t`
have the same sequence of characters other than space, tab, newline and
carriage return; this is also when the comparison of `Validate` succeeds. -/
theorem Trim_eq_iff (s t : String) :
    (Trim s = Trim t ↔ nonWhitespace s = nonWhitespace t) ∧
    (Validate.sameText s t = true ↔ nonWhitespace s = nonWhitespace t) := by
  have h : Trim s = Trim t ↔ nonWhitespace s = nonWhitespace t := by
    rw [← Trim_data, ← Trim_data]
    constructor
    · intro e; rw [e]
    · intro e; exact String.ext e
  refine ⟨h, ?_⟩
  unfold Validate.sameText
  rw [beq_iff_eq]
  exact h

/-- C6 at concrete inputs: the output and the expectation of `TestEmptyPackage`
differ only in whitespace and compare equal; moving a brace, or dropping a
semicolon, makes two texts compare unequal. -/
theorem Trim_eq_iff_witness :
    Validate.sameText "void loop() {}\nvoid setup() {}\n" "void loop(){}\n\tvoid setup() {}\t" = true ∧
    Validate.sameText "void f() {} x;" "void f() { x; }" = false ∧
    Validate.sameText "x = 1;" "x = 1" = false ∧
    nonWhitespace "a b\tc\r\nd" = ['a', 'b', 'c', 'd'] :=
  ⟨(Trim_eq_iff _ _).2.mpr (by decide), by decide, by decide, by decide⟩

/-! ## `NewMapping`, decode failures and chains of rules -/

/-- C8: for every filename `f`, `NewMapping f` has `Filename = f` and an
allocated rule table without entries, whose only scan order is the empty one;
`Apply` then returns every identifier unchanged. -/
theorem NewMapping_is_empty (f : String) :
    (NewMapping f).Filename = f ∧
    (NewMapping f).Rules = some [] ∧
    (NewMapping f).Rules.keys = [] ∧
    ∀ order x, (NewMapping f).Rules.IsRangeOrder order →
      (NewMapping f).Apply order x = x := by
  refine ⟨rfl, rfl, rfl, ?_⟩
  intro order x h
  exact (NewMapping f).applyLoop_of_not_mem order x (fun hx => by
    have := h.2.1 x hx
    simp [NewMapping, GoMap.make, GoMap.keys, GoMap.entries] at this)

/-- C8 at a concrete input: `NewMapping("mapping.json")` leaves `digital.Low`
as it is. -/
theorem NewMapping_is_empty_witness :
    (NewMapping "mapping.json").Filename = "mapping.json" ∧
    (NewMapping "mapping.json").Rules.IsRangeOrder [] ∧
    (NewMapping "mapping.json").Apply [] "digital.Low" = "digital.Low" :=
  ⟨(NewMapping_is_empty "mapping.json").1, by decide,
    (NewMapping_is_empty "mapping.json").2.2.2 [] "digital.Low" (by decide)⟩

/-- C9 (the claim fails here): the file holds `{"a": "b", "c": 1}`.  Decoding
fails with a type error, `Read` returns nil, and the table is not empty: it
holds `a -> b`, so `Apply("a")` is `"b"`. -/
theorem Read_keeps_decoded_entries :
    (Unmarshal mixedObject none).2 = some (.typeMismatch "number") ∧
    ((NewMapping "mapping.json").Read (fileWith mixedObject)).2 = none ∧
    ((NewMapping "mapping.json").Read (fileWith mixedObject)).1.Rules.keys = ["c", "a"] ∧
    ((NewMapping "mapping.json").Read (fileWith mixedObject)).1.Rules.index "a" = "b" ∧
    ((NewMapping "mapping.json").Read (fileWith mixedObject)).1.Rules.IsRangeOrder ["a", "c"] ∧
    ((NewMapping "mapping.json").Read (fileWith mixedObject)).1.Apply ["a", "c"] "a" = "b" := by
  decide

/-- C9 as amended: when the file can be read and its content fails to decode,
`Read` returns nil, keeps `Filename`, and replaces the rules held before by
what the decoder stored into a fresh nil map; when the content is not an
object (invalid JSON, or a value of another kind) that table has no entry and
`Apply` returns every identifier unchanged. -/
theorem Read_of_decode_failure (fs : FileSystem) (m : Mapping) (content : Content)
    (err : Error) (hread : fs m.Filename = .ok content)
    (hfail : (Unmarshal content none).2 = some err) :
    (m.Read fs).2 = none ∧
    (m.Read fs).1.Filename = m.Filename ∧
    (m.Read fs).1.Rules = (Unmarshal content none).1 ∧
    ((∀ members, content ≠ .document (.object members)) →
      (m.Read fs).1.Rules = none ∧ (m.Read fs).1.Rules.keys = [] ∧
      ∀ order x, (m.Read fs).1.Rules.IsRangeOrder order →
        (m.Read fs).1.Apply order x = x) := by
  have h : m.Read fs = (⟨m.Filename, (Unmarshal content none).1⟩, none) := by
    unfold Mapping.Read
    rw [hread]
  rw [h]
  refine ⟨rfl, rfl, rfl, ?_⟩
  intro hobj
  have hnil : (Unmarshal content none).1 = none := by
    cases content with
    | malformed t => rfl
    | document v =>
      cases v with
      | object members => exact absurd rfl (hobj members)
      | _ => rfl
  have hk : GoMap.keys (Unmarshal content none).1 = [] := by rw [hnil]; rfl
  refine ⟨hnil, hk, ?_⟩
  intro order x ho
  exact Mapping.applyLoop_of_not_mem _ order x (fun hx => by
    have hmem : x ∈ GoMap.keys (Unmarshal content none).1 := ho.2.1 x hx
    rw [hk] at hmem
    exact absurd hmem (List.not_mem_nil x))

/-- C9 as amended, at a concrete input: a mapping that holds the rule
`digital.Low -> LOW` reads a file that holds `not json`. -/
theorem Read_of_decode_failure_witness :
    (testMapping.Read (fileWith (.malformed "not json"))).2 = none ∧
    (testMapping.Read (fileWith (.malformed "not json"))).1.Rules = none ∧
    (testMapping.Read (fileWith (.malformed "not json"))).1.Apply [] "digital.Low" =
      "digital.Low" :=
  have h := Read_of_decode_failure (fileWith (.malformed "not json")) testMapping
    (.malformed "not json") .invalidJSON rfl rfl
  have h2 := h.2.2.2 (fun _ e => by cases e)
  ⟨h.1, h2.1, h2.2.2 [] "digital.Low" (by rw [h2.1]; decide)⟩

/-- C10: for every rule table, every scan order of its keys and every
identifier `x`, `Apply` returns `R[...R[x]]` with `n` lookups, where the values
`x, R[x], ...` looked up are `n` different keys of the table (so `n` is at most
the number of keys); the result is `x` itself or the replacement value of a
key. -/
theorem Apply_follows_rules (m : Mapping) (order : List String) (x : String)
    (horder : m.Rules.IsRangeOrder order) :
    ∃ n, n ≤ m.Rules.keys.dedup.length ∧
      m.Apply order x = (m.Rules.index)^[n] x ∧
      (∀ i < n, (m.Rules.index)^[i] x ∈ m.Rules.keys) ∧
      ((List.range n).map (fun i => (m.Rules.index)^[i] x)).Nodup ∧
      (m.Apply order x = x ∨ ∃ k ∈ m.Rules.keys, m.Apply order x = m.Rules.index k) := by
  obtain ⟨n, hn, hs⟩ := m.applyLoop_chain order x
  have hkeys : ∀ i < n, (m.Rules.index)^[i] x ∈ m.Rules.keys := by
    intro i hi
    apply horder.2.1
    apply hs.subset
    exact List.mem_map.mpr ⟨i, List.mem_range.mpr hi, rfl⟩
  refine ⟨n, ?_, hn, hkeys, hs.nodup horder.1, ?_⟩
  · have := hs.length_le
    simp only [List.length_map, List.length_range] at this
    exact this.trans horder.length_le
  · cases n with
    | zero => exact Or.inl hn
    | succ k =>
      right
      refine ⟨_, hkeys k (Nat.lt_succ_self k), ?_⟩
      rw [← Function.iterate_succ_apply' (m.Rules.index) k x]
      exact hn

/-- C10 at concrete inputs: on the cycle `a -> b`, `b -> a` the call returns
after two lookups, with `a` when `a` is scanned first and with `b` when `b` is
scanned first. -/
theorem Apply_follows_rules_witness :
    cyclicMapping.Rules.IsRangeOrder ["a", "b"] ∧
    cyclicMapping.Apply ["a", "b"] "a" = "a" ∧
    cyclicMapping.Apply ["b", "a"] "a" = "b" ∧
    ∃ n, n ≤ 2 ∧ cyclicMapping.Apply ["a", "b"] "a" = (cyclicMapping.Rules.index)^[n] "a" := by
  obtain ⟨n, hn, h, _⟩ := Apply_follows_rules cyclicMapping ["a", "b"] "a" (by decide)
  exact ⟨by decide, by decide, by decide, n, hn, h⟩

/-! ## The entry functions of the worker -/

/-- The worker as modelled here gives the outputs that the tests of
`worker_test.go` expect for the empty package and for the programs that
declare a function (those whose source stays within the expressions of section
3 of the specification). -/
theorem worker_passes_tests :
    -- TestEmptyPackage
    Validate.sameText (Start testRegistry testMapping emptyPackage)
      "void loop(){}\n\tvoid setup() {}\t" = true ∧
    -- TestFunctionDeclaration
    Validate.sameText (Start testRegistry testMapping fooBar)
      "void foo(){}\n\tvoid bar() {}\t" = true ∧
    -- TestFunctionDeclarationWithArgs
    Validate.sameText
      (Start testRegistry testMapping
        ⟨[], [.func ⟨"foo", [("x", "int")], []⟩, .func ⟨"bar", [("y", "int")], []⟩]⟩)
      "void foo(int x){}\n\tvoid bar(int y) {}\t" = true ∧
    -- TestFunctionWithVarStringDeclaration
    Validate.sameText
      (Start testRegistry testMapping
        ⟨[], [.func ⟨"foo", [],
          [.decl ⟨false, "foo", "string", some (.literal "\"bar\"")⟩]⟩]⟩)
      "\n\tvoid foo() \x7b\n\t\tchar* foo = \"bar\";\n\t\x7d\n\t" = true ∧
    -- TestFunctionWithFunctionCallWithArgs
    Validate.sameText
      (Start testRegistry testMapping
        ⟨[], [.func ⟨"foo", [],
          [.expr (.call (.ident "bar") [.literal "1", .literal "2", .literal "3"])]⟩]⟩)
      "\n\tvoid foo() \x7b\n\t\tbar(1,2,3);\n\t\x7d\n\t" = true ∧
    -- TestFunctionWithIdentParam
    Validate.sameText
      (Start testRegistry testMapping
        ⟨[], [.func ⟨"foo", [],
          [.expr (.call (.selector "foo" "Bar")
            [.literal "1", .literal "\"2\"", .selector "digital" "Low"])]⟩]⟩)
      "\n\tvoid foo() \x7b\n\t\tfoo.Bar(1,\"2\",LOW);\n\t\x7d\n\t" = true ∧
    -- TestFunctionWithFunctionParam
    Validate.sameText
      (Start testRegistry testMapping
        ⟨[], [.func ⟨"foo", [],
          [.expr (.call (.selector "serial" "Println")
            [.call (.selector "wifi" "LocalIP") []])]⟩]⟩)
      "\n\tvoid foo() \x7b\n\t\tSerial.println(WiFi.localIP());\n\t\x7d\n\t" = true := by
  decide

/-- The texts that `TestConstStringDeclaration` and `TestPackageImport` expect
hold no entry function, while their programs declare no function: the text
written for them, which ends with the two entry functions, is not the text
these tests expect. -/
theorem tests_without_function_expect_no_entry :
    constOnly.functions.length = 0 ∧
    Validate.sameText (Start testRegistry testMapping constOnly)
      "\n\tconst char* foo = \"bar\";\n\t" = false ∧
    Validate.sameText (Start testRegistry testMapping constOnly)
      "const char* foo = \"bar\"; void loop() {} void setup() {}" = true ∧
    Validate.sameText
      (Start testRegistry testMapping
        ⟨[⟨none, "github.com/andygeiss/esp32-mqtt/api/controller"⟩,
          ⟨none, "github.com/andygeiss/esp32-mqtt/api/controller/serial"⟩,
          ⟨none, "github.com/andygeiss/esp32/api/controller/timer"⟩,
          ⟨some "wifi", "github.com/andygeiss/esp32/api/controller/wifi"⟩], []⟩)
      "\n\t#include <WiFi.h>\n\t" = false := by
  decide

theorem GoMap.lookup_of_not_mem_keys (r : GoMap) (k : String) (hk : k ∉ r.keys) :
    r.entries.lookup k = none := by
  rw [List.lookup_eq_none_iff]
  intro p hp
  rw [bne_iff_ne]
  intro e
  exact hk (List.mem_map.mpr ⟨p, hp, e.symm⟩)

theorem GoMap.lookup_of_mem_keys (r : GoMap) (k : String) (hk : k ∈ r.keys) :
    r.entries.lookup k = some (r.index k) := by
  unfold GoMap.index
  cases h : r.entries.lookup k with
  | some v => rfl
  | none =>
    rw [List.lookup_eq_none_iff] at h
    obtain ⟨p, hp, rfl⟩ := List.mem_map.mp hk
    have := h p hp
    simp at this

/-- When the replacement of `x` is not scanned later, or is `x` itself, the
scan takes one step from `x` and no other. -/
theorem Mapping.applyLoop_single_step (m : Mapping) (order : List String) (x : String)
    (hnd : order.Nodup) (hx : x ∈ order)
    (hv : m.Rules.index x ∉ order ∨ m.Rules.index x = x) :
    m.applyLoop order x = m.Rules.index x := by
  induction order with
  | nil => simp at hx
  | cons w rest ih =>
    rw [List.nodup_cons] at hnd
    by_cases hw : x = w
    · subst hw
      simp only [Mapping.applyLoop, if_true]
      rcases hv with hv | hv
      · exact m.applyLoop_of_not_mem rest _ (fun h => hv (List.mem_cons_of_mem _ h))
      · rw [hv]
        exact m.applyLoop_of_not_mem rest x hnd.1
    · simp only [Mapping.applyLoop, hw, if_false]
      have hxr : x ∈ rest := by
        rcases List.mem_cons.mp hx with h | h
        · exact absurd h hw
        · exact h
      exact ih hnd.2 hxr (hv.imp (fun h hm => h (List.mem_cons_of_mem _ hm)) id)

theorem Mapping.applyLoop_eq_directLookup (m : Mapping) (order : List String) (x : String)
    (hno : m.Rules.NoChain) (horder : m.Rules.IsRangeOrder order) :
    m.applyLoop order x = m.directLookup x := by
  unfold Mapping.directLookup
  by_cases hx : x ∈ m.Rules.keys
  · rw [m.Rules.lookup_of_mem_keys x hx]
    apply m.applyLoop_single_step order x horder.1 (horder.2.2 x hx)
    exact (hno x hx).imp (fun h hm => h (horder.2.1 _ hm)) id
  · rw [m.Rules.lookup_of_not_mem_keys x hx]
    exact m.applyLoop_of_not_mem order x (fun h => hx (horder.2.1 x h))

theorem Mapping.directLookup_idem (m : Mapping) (x : String) (hno : m.Rules.NoChain) :
    m.directLookup (m.directLookup x) = m.directLookup x := by
  by_cases hx : x ∈ m.Rules.keys
  · have h1 : m.directLookup x = m.Rules.index x := by
      unfold Mapping.directLookup
      rw [m.Rules.lookup_of_mem_keys x hx]
    rw [h1]
    rcases hno x hx with h | h
    · unfold Mapping.directLookup
      rw [m.Rules.lookup_of_not_mem_keys _ h]
    · rw [h]; exact h1.trans h
  · have h1 : m.directLookup x = x := by
      unfold Mapping.directLookup
      rw [m.Rules.lookup_of_not_mem_keys x hx]
    rw [h1, h1]

/-- C11: for every rule table in which no replacement value is a key other
than its own, every scan order and every identifier `x`, `Apply` is direct key
lookup with pass-through: `R[x]` when `x` is a key, `x` otherwise.  The result
is then the same for every scan order, and applying twice is applying once. -/
theorem Apply_eq_direct_lookup (m : Mapping) (order : List String) (x : String)
    (hno : m.Rules.NoChain) (horder : m.Rules.IsRangeOrder order) :
    m.Apply order x = m.directLookup x ∧
    (x ∈ m.Rules.keys → m.Apply order x = m.Rules.index x) ∧
    (x ∉ m.Rules.keys → m.Apply order x = x) ∧
    (∀ order2, m.Rules.IsRangeOrder order2 → m.Apply order2 x = m.Apply order x) ∧
    (∀ order2, m.Rules.IsRangeOrder order2 →
      m.Apply order2 (m.Apply order x) = m.Apply order x) := by
  have h : ∀ o y, m.Rules.IsRangeOrder o → m.Apply o y = m.directLookup y :=
    fun o y ho => m.applyLoop_eq_directLookup o y hno ho
  refine ⟨h order x horder, ?_, ?_, ?_, ?_⟩
  · intro hx
    rw [h order x horder]
    unfold Mapping.directLookup
    rw [m.Rules.lookup_of_mem_keys x hx]
  · intro hx
    rw [h order x horder]
    unfold Mapping.directLookup
    rw [m.Rules.lookup_of_not_mem_keys x hx]
  · intro o ho
    rw [h o x ho, h order x horder]
  · intro o ho
    rw [h order x horder, h o _ ho]
    exact m.directLookup_idem x hno

/-- C11 at concrete inputs: with the rules `{"a": "b", "x": "x"}`, `a` gives
`b`, `x` gives `x` and `b` gives `b`, in both scan orders. -/
theorem Apply_eq_direct_lookup_witness :
    plainMapping.Rules.NoChain ∧
    plainMapping.Rules.IsRangeOrder ["a", "x"] ∧
    plainMapping.Rules.IsRangeOrder ["x", "a"] ∧
    plainMapping.Apply ["a", "x"] "a" = "b" ∧
    plainMapping.Apply ["x", "a"] "a" = "b" ∧
    plainMapping.Apply ["x", "a"] "x" = "x" ∧
    plainMapping.Apply ["x", "a"] "b" = "b" ∧
    plainMapping.Apply ["x", "a"] (plainMapping.Apply ["a", "x"] "a") =
      plainMapping.Apply ["a", "x"] "a" :=
  have ha := Apply_eq_direct_lookup plainMapping ["a", "x"] "a" (by decide) (by decide)
  ⟨by decide, by decide, by decide,
    ha.1.trans (by decide),
    ((Apply_eq_direct_lookup plainMapping ["x", "a"] "a" (by decide) (by decide)).2.1
      (by decide)).trans (by decide),
    ((Apply_eq_direct_lookup plainMapping ["x", "a"] "x" (by decide) (by decide)).2.1
      (by decide)).trans (by decide),
    (Apply_eq_direct_lookup plainMapping ["x", "a"] "b" (by decide) (by decide)).2.2.1
      (by decide),
    ha.2.2.2.2 ["x", "a"] (by decide)⟩

/-! ## A successful `Read` -/

theorem lookup_filter_other (es : List (String × String)) (k k2 : String) (h : k2 ≠ k) :
    (es.filter (fun e => e.1 != k)).lookup k2 = es.lookup k2 := by
  induction es with
  | nil => rfl
  | cons e es ih =>
    by_cases he : e.1 = k
    · have hf : (e.1 != k) = false := by simp [he]
      have h2 : (k2 == e.1) = false := by rw [he]; simpa using h
      rw [List.filter_cons, hf, List.lookup_cons, h2]
      simpa using ih
    · have hf : (e.1 != k) = true := by simpa using he
      rw [List.filter_cons, hf]
      simp only [if_true]
      rw [List.lookup_cons, List.lookup_cons, ih]

theorem GoMap.lookup_set (r : GoMap) (k v k2 : String) :
    (r.set k v).entries.lookup k2 = if k2 = k then some v else r.entries.lookup k2 := by
  have hset : (r.set k v).entries = (k, v) :: r.entries.filter (fun e => e.1 != k) := rfl
  rw [hset, List.lookup_cons]
  by_cases h : k2 = k
  · simp [h]
  · have hb : (k2 == k) = false := by simpa using h
    rw [hb, if_neg h]
    exact lookup_filter_other r.entries k k2 h

/-- Decoding an object of strings reports no error and binds every key to the
value of its last member; the keys that the object does not have keep the
binding they had in the map. -/
theorem storeMembers_strings (members : List (String × String)) (r : GoMap)
    (err : Option Error) (k : String) :
    (storeMembers (members.map (fun e => (e.1, JSON.string e.2))) r err).2 = err ∧
    (storeMembers (members.map (fun e => (e.1, JSON.string e.2))) r err).1.entries.lookup k =
      (decoded members k).or (r.entries.lookup k) := by
  induction members generalizing r with
  | nil => exact ⟨rfl, by simp [storeMembers, decoded]⟩
  | cons e rest ih =>
    obtain ⟨a, b⟩ := e
    simp only [List.map_cons, storeMembers]
    refine ⟨(ih (r.set a b)).1, ?_⟩
    rw [(ih (r.set a b)).2, GoMap.lookup_set]
    unfold decoded
    rw [List.reverse_cons, List.lookup_append]
    simp only [List.lookup_cons, List.lookup_nil]
    by_cases h : k = a
    · subst h
      cases List.lookup k rest.reverse <;> simp
    · have hb : (k == a) = false := by simpa using h
      simp [h, hb]

theorem Unmarshal_ofStrings (members : List (String × String)) (k : String) :
    (Unmarshal (Content.ofStrings members) none).2 = none ∧
    (Unmarshal (Content.ofStrings members) none).1.entries.lookup k = decoded members k := by
  have h := storeMembers_strings members (some []) none k
  refine ⟨h.1, ?_⟩
  have h2 := h.2
  simp only [GoMap.entries, List.lookup_nil, Option.or_none] at h2
  exact h2

/-- C12: when the file of a mapping can be read and its content decodes
without error to the table `D`, `Read` returns nil, `Filename` is unchanged and
the rule table is exactly `D`, whatever rules the mapping held before.  For an
object of strings, `D` binds each key of the object to the value of its last
member and has no other key. -/
theorem Read_replaces_rules (fs : FileSystem) (m : Mapping) (content : Content) (D : GoMap)
    (hread : fs m.Filename = .ok content) (hdec : Unmarshal content none = (D, none)) :
    (m.Read fs).2 = none ∧
    (m.Read fs).1.Rules = D ∧
    (m.Read fs).1.Filename = m.Filename ∧
    (∀ members, content = Content.ofStrings members →
      ∀ k, (m.Read fs).1.Rules.entries.lookup k = decoded members k) := by
  have h : m.Read fs = (⟨m.Filename, D⟩, none) := by
    unfold Mapping.Read
    rw [hread]
    simp only [hdec]
  rw [h]
  refine ⟨rfl, rfl, rfl, ?_⟩
  rintro members rfl k
  have h2 := (Unmarshal_ofStrings members k).2
  rw [hdec] at h2
  exact h2

/-- C12 at a concrete input: a mapping that holds the rule
`digital.Low -> LOW` reads a file that holds `{"a": "b"}`; afterwards its table
is `{"a": "b"}`, without the rule it held before. -/
theorem Read_replaces_rules_witness :
    (testMapping.Read (fileWith (Content.ofStrings [("a", "b")]))).2 = none ∧
    (testMapping.Read (fileWith (Content.ofStrings [("a", "b")]))).1.Rules =
      some [("a", "b")] ∧
    (testMapping.Read (fileWith (Content.ofStrings [("a", "b")]))).1.Filename =
      "mapping.json" ∧
    (testMapping.Read (fileWith (Content.ofStrings [("a", "b")]))).1.Rules.entries.lookup
      "digital.Low" = none ∧
    (testMapping.Read (fileWith (Content.ofStrings [("a", "b")]))).1.Rules.entries.lookup
      "a" = some "b" :=
  have h := Read_replaces_rules (fileWith (Content.ofStrings [("a", "b")])) testMapping
    (Content.ofStrings [("a", "b")]) (some [("a", "b")]) rfl rfl
  ⟨h.1, h.2.1, h.2.2.1, (h.2.2.2 [("a", "b")] rfl "digital.Low").trans (by decide),
    (h.2.2.2 [("a", "b")] rfl "a").trans (by decide)⟩

end Worker
